import Mathlib

/-!
Verification of the gungnir `List` — an immutable, structurally shared,
singly linked list (src/include/gungnir/List.hpp).

The C++ data model is a reference-counted node chain (`List<A>::Node`,
either the terminal Nil node with null head/tail pointers, or a Cons node
with a head value and a shared tail pointer) plus a list handle carrying a
cached `size_` and a root `node_`.  Here the node chain is embedded as the
inductive `Node`, the handle as the structure `GList` (the source class is
named `List`; it is renamed to avoid clashing with Lean's builtin list).
Machine `std::size_t` values are embedded as `Nat`; every subtraction
performed by the C++ code under scrutiny is guarded so it never wraps.
Operations that `throw` are embedded as `Except String` with the exact
message thrown by the source; places where the C++ code would dereference a
null pointer (possible only when the size/chain invariant `wf` is broken,
i.e. undefined behavior) are marked by an `Option` result of `none` or by a
commented fallback branch.
-/

set_option autoImplicit false
set_option linter.unusedVariables false

namespace Gungnir

/-- A node of the chain: `Nil` (null `head`/`tail` pointers in the source) or
`Cons` (a head value plus a shared tail pointer).  Source: `List<A>::Node`,
List.hpp lines 1280-1312. -/
inductive Node (α : Type) : Type where
  | nil : Node α
  | cons (head : α) (tail : Node α) : Node α
  deriving DecidableEq

variable {α β : Type}

/-- Source `n->tail` pointer dereference.  Nil's tail is a null pointer in the
source; following it is undefined behavior there, modelled as `nil`. -/
def Node.tailN : Node α → Node α
  | .nil => .nil
  | .cons _ t => t

/-- Source `n->head`: `none` models the null head pointer of Nil. -/
def Node.headOpt : Node α → Option α
  | .nil => none
  | .cons h _ => some h

/-- The value sequence traversed by `foreachImpl` (List.hpp lines 1154-1160):
walk from the root, collecting heads, until the node with a null head. -/
def Node.elems : Node α → List α
  | .nil => []
  | .cons h t => h :: t.elems

/-- Number of Cons nodes reachable before the terminating Nil. -/
def Node.chainLength : Node α → Nat
  | .nil => 0
  | .cons _ t => t.chainLength + 1

/-- Chain holding exactly the given value sequence. -/
def Node.ofList : List α → Node α
  | [] => .nil
  | h :: t => .cons h (Node.ofList t)

/-- The node reached after following `tail` `i` times, as in the walking
loops of `operator[]`, `drop` and `updated`. -/
def Node.nth : Node α → Nat → Node α
  | n, 0 => n
  | n, i + 1 => n.tailN.nth i

/-- Source `buf.emplace_back(nd->head)` loop of `take`/`updated`: the first `k`
heads of the chain.  (The source loops exactly `k` times with `k ≤ size`;
walking past Nil would be undefined behavior and stops here.) -/
def Node.takeElems : Node α → Nat → List α
  | _, 0 => []
  | .nil, _ + 1 => []
  | .cons h t, k + 1 => h :: t.takeElems k

/-- Collecting loop of `takeWhile` (List.hpp lines 361-375): heads while the
node has a non-null head and the predicate holds. -/
def Node.takeWhileElems (p : α → Bool) : Node α → List α
  | .nil => []
  | .cons h t => if p h then h :: t.takeWhileElems p else []

/-- The list handle: a cached size plus a root node (fields `size_` and
`node_`, List.hpp lines 1175-1176).  The private constructor
`List(size, node)` (lines 1149-1152) is the anonymous constructor. -/
structure GList (α : Type) : Type where
  size : Nat
  node : Node α
  deriving DecidableEq

/-- The handle invariant: the cached size equals the number of Cons nodes
reachable from the root before the terminating Nil. -/
def wf (xs : GList α) : Prop := xs.size = xs.node.chainLength

instance (xs : GList α) : Decidable (wf xs) := by
  unfold wf; infer_instance

/-- The prepend loop of the static `toList` builder (List.hpp lines
1162-1173): fold the reversed buffer onto `head`, `head = create(x, head)`. -/
def buildRev (rev : List α) (head : Node α) : Node α :=
  rev.foldl (fun acc x => Node.cons x acc) head

/-- Static `List::toList(size, rbegin, rend, head)` (List.hpp lines
1162-1173): `rev` is the buffer in reverse-iterator order. -/
def GList.toList (size : Nat) (rev : List α) (head : Node α) : GList α :=
  ⟨size, buildRev rev head⟩

/-- Source `List()` (line 49). -/
def GList.empty : GList α := ⟨0, Node.nil⟩

/-- Source `List(x)` (lines 56-61). -/
def GList.single (x : α) : GList α := ⟨1, Node.cons x Node.nil⟩

/-- Source `List(head, tail)` (lines 69-74). -/
def GList.consL (head : α) (tail : GList α) : GList α :=
  ⟨tail.size + 1, Node.cons head tail.node⟩

/-- Iterator-range constructor `List(first, last)` (lines 106-119): buffer
all elements, then `toList(buf.size, buf.rbegin, buf.rend)`.  The variadic
constructor (lines 89-91) unfolds to nested `consL`, producing the same
list. -/
def GList.ofSeq (l : List α) : GList α :=
  GList.toList l.length l.reverse Node.nil

/-- Source `isEmpty()` (lines 138-141). -/
def GList.isEmpty (xs : GList α) : Bool := xs.size == 0

/-- Source `head()` (lines 159-165); `ok none` marks the undefined behavior of
dereferencing a null head (possible only when `wf` fails). -/
def GList.headE (xs : GList α) : Except String (Option α) :=
  if xs.isEmpty then .error "head of empty list" else .ok xs.node.headOpt

/-- Source `tail()` (lines 173-179): `List(size() - 1, node_->tail)`. -/
def GList.tailE (xs : GList α) : Except String (GList α) :=
  if xs.isEmpty then .error "tail of empty list"
  else .ok ⟨xs.size - 1, xs.node.tailN⟩

/-- Source `uncons()` (lines 187-193): `(head(), tail())`, neither of which can
throw once the emptiness check has passed. -/
def GList.unconsE (xs : GList α) : Except String (Option α × GList α) :=
  if xs.isEmpty then .error "uncons on empty list"
  else .ok (xs.node.headOpt, ⟨xs.size - 1, xs.node.tailN⟩)

/-- Source `operator[](index)` (lines 1063-1071): bounds check, then walk `index`
tails and dereference the head. -/
def GList.getE (xs : GList α) (index : Nat) : Except String (Option α) :=
  if xs.size ≤ index then .error "index out of range"
  else .ok (xs.node.nth index).headOpt

/-- Source `last()` (lines 201-207): emptiness check, then `(*this)[size() - 1]`. -/
def GList.lastE (xs : GList α) : Except String (Option α) :=
  if xs.isEmpty then .error "last of empty list"
  else xs.getE (xs.size - 1)

/-- Source `take(n)` (lines 325-338): clamp `n` to the size, buffer that many
heads, rebuild with `toList(buf.size(), ...)`. -/
def GList.take (xs : GList α) (n : Nat) : GList α :=
  let buf := xs.node.takeElems (min n xs.size)
  GList.toList buf.length buf.reverse Node.nil

/-- Source `init()` (lines 215-221): emptiness check, then `take(size() - 1)`. -/
def GList.initE (xs : GList α) : Except String (GList α) :=
  if xs.isEmpty then .error "init of empty list"
  else .ok (xs.take (xs.size - 1))

/-- Source `drop(n)` (lines 384-392): empty list if `n >= size()`, otherwise
`List(size() - n, *pn)` where `*pn` is the node after `n` tail steps —
the suffix chain is shared, not rebuilt. -/
def GList.drop (xs : GList α) (n : Nat) : GList α :=
  if xs.size ≤ n then GList.empty
  else ⟨xs.size - n, xs.node.nth n⟩

/-- Source `takeRight(n)` (lines 347-350): `drop(size() - min(n, size()))`. -/
def GList.takeRight (xs : GList α) (n : Nat) : GList α :=
  xs.drop (xs.size - min n xs.size)

/-- Source `dropRight(n)` (lines 401-404): `take(size() - min(n, size()))`. -/
def GList.dropRight (xs : GList α) (n : Nat) : GList α :=
  xs.take (xs.size - min n xs.size)

/-- Source `takeWhile(p)` (lines 361-375). -/
def GList.takeWhile (xs : GList α) (p : α → Bool) : GList α :=
  let buf := xs.node.takeWhileElems p
  GList.toList buf.length buf.reverse Node.nil

/-- The loop of `dropWhile` (lines 415-422): starting from `s = size()`,
decrement `s` and advance while the head is non-null and satisfies `p`;
the result handle shares the remaining suffix node. -/
def dropWhileGo (p : α → Bool) : Nat → Node α → GList α
  | s, .nil => ⟨s, .nil⟩
  | s, .cons h t => if p h then dropWhileGo p (s - 1) t else ⟨s, .cons h t⟩

/-- Source `dropWhile(p)` (lines 415-422). -/
def GList.dropWhile (xs : GList α) (p : α → Bool) : GList α :=
  dropWhileGo p xs.size xs.node

/-- Source `slice(from, until)` (lines 436-442). -/
def GList.slice (xs : GList α) (i j : Nat) : GList α :=
  if j ≤ i then GList.empty else (xs.drop i).take (j - i)

/-- Source `updated(index, args...)` (lines 648-669): bounds check; buffer the
first `index` heads; rebuild with `toList(size(), buf.rbegin, buf.rend,
create(newValue, n->tail))` where `n` is the node at position `index`. -/
def GList.updatedE (xs : GList α) (index : Nat) (v : α) : Except String (GList α) :=
  if xs.size ≤ index then .error "index out of range"
  else
    let buf := xs.node.takeElems index
    .ok (GList.toList xs.size buf.reverse (Node.cons v (xs.node.nth index).tailN))

/-- Source `prepend(args...)` (lines 600-608): `List(size() + 1, create(x, node_))`. -/
def GList.prepend (xs : GList α) (v : α) : GList α :=
  ⟨xs.size + 1, Node.cons v xs.node⟩

/-- Source `concat(that)` (lines 617-636): return the other operand if either is
empty; otherwise buffer this list's heads and rebuild onto `that`'s shared
root with `toList(size() + that.size(), ...)`. -/
def GList.concat (xs that : GList α) : GList α :=
  if xs.isEmpty then that
  else if that.isEmpty then xs
  else
    let buf := xs.node.elems
    GList.toList (xs.size + that.size) buf.reverse that.node

/-- Source `map(f)` (lines 245-260): buffer `f` of every element, rebuild with
`toList(size(), ...)` — note the size passed is the receiver's `size()`. -/
def GList.map (xs : GList α) (f : α → β) : GList β :=
  let buf := xs.node.elems.map f
  GList.toList xs.size buf.reverse Node.nil

/-- Source `filter(p)` (lines 272-286): buffer the elements satisfying `p` in
traversal order, rebuild with `toList(buf.size(), ...)`. -/
def GList.filter (xs : GList α) (p : α → Bool) : GList α :=
  let buf := xs.node.elems.filter p
  GList.toList buf.length buf.reverse Node.nil

/-- Source `filterNot(p)` (lines 298-302): `filter` of the negated predicate. -/
def GList.filterNot (xs : GList α) (p : α → Bool) : GList α :=
  xs.filter (fun x => !p x)

/-- Source `reverse()` (lines 309-316): repeated prepend during one traversal,
then `List(size(), hd)`. -/
def GList.reverse (xs : GList α) : GList α :=
  ⟨xs.size, xs.node.elems.foldl (fun hd x => Node.cons x hd) Node.nil⟩

/-- Source `flatMap(f)` (lines 453-467): buffer every element of every `f x` in
order, rebuild with `toList(buf.size(), ...)`. -/
def GList.flatMapG (xs : GList α) (f : α → GList β) : GList β :=
  let buf := (xs.node.elems.map fun x => (f x).node.elems).flatten
  GList.toList buf.length buf.reverse Node.nil

/-- Source `flatten()` (lines 477-491). -/
def GList.flattenG (xs : GList (GList β)) : GList β :=
  let buf := (xs.node.elems.map fun ys => ys.node.elems).flatten
  GList.toList buf.length buf.reverse Node.nil

/-- Loop of `exists(p)` (lines 502-511): walk while heads are non-null,
returning `true` at the first satisfying element. -/
def Node.existsB (p : α → Bool) : Node α → Bool
  | .nil => false
  | .cons h t => if p h then true else t.existsB p

/-- Source `exists(p)` (lines 502-511). -/
def GList.existsB (xs : GList α) (p : α → Bool) : Bool := xs.node.existsB p

/-- Loop of `forall(p)` (lines 522-531): walk while heads are non-null,
returning `false` at the first violating element. -/
def Node.forallB (p : α → Bool) : Node α → Bool
  | .nil => true
  | .cons h t => if !p h then false else t.forallB p

/-- Source `forall(p)` (lines 522-531). -/
def GList.forallB (xs : GList α) (p : α → Bool) : Bool := xs.node.forallB p

/-- How many times the loop of `exists(p)` invokes `p` on this chain. -/
def Node.existsCalls (p : α → Bool) : Node α → Nat
  | .nil => 0
  | .cons h t => if p h then 1 else t.existsCalls p + 1

/-- How many times the loop of `forall(p)` invokes `p` on this chain. -/
def Node.forallCalls (p : α → Bool) : Node α → Nat
  | .nil => 0
  | .cons h t => if !p h then 1 else t.forallCalls p + 1

/-- Source `foldLeft(z, op)` (lines 712-719): one `foreachImpl` traversal updating
the accumulator left to right. -/
def GList.foldLeft (xs : GList α) (z : β) (op : β → α → β) : β :=
  xs.node.elems.foldl op z

/-- Source `reduceLeft(op)` (lines 1004-1017): emptiness check, then
`tail().foldLeft(head(), op)`; the `none` branch marks the null-head
dereference that is unreachable for well-formed lists. -/
def GList.reduceLeftE (xs : GList α) (op : α → α → α) : Except String (Option α) :=
  if xs.isEmpty then .error "reduceLeft on empty list"
  else .ok (match xs.node with
    | .nil => none
    | .cons h t => some (t.elems.foldl op h))

/-- Source `reduce(op)` (lines 978-991): emptiness check, then `reduceLeft(op)`. -/
def GList.reduceE (xs : GList α) (op : α → α → α) : Except String (Option α) :=
  if xs.isEmpty then .error "reduce on empty list"
  else xs.reduceLeftE op

/-- The backward loop of `reduceRight` (lines 1043-1053): seed with the
last buffered element, then apply `op` right to left. -/
def reduceRightList (op : α → α → α) : List α → Option α
  | [] => none
  | [a] => some a
  | a :: b :: l => (reduceRightList op (b :: l)).map (fun acc => op a acc)

/-- Source `reduceRight(op)` (lines 1030-1054): emptiness check, buffer all
elements, then fold right to left seeded with the last; `ok none` marks the
empty-buffer undefined behavior reachable only when `wf` fails. -/
def GList.reduceRightE (xs : GList α) (op : α → α → α) : Except String (Option α) :=
  if xs.isEmpty then .error "reduceRight on empty list"
  else .ok (reduceRightList op xs.node.elems)

/-- Source `sorted(lt, stable)` (lines 809-831): buffer all elements, sort them
with the comparator, rebuild with `toList(size(), ...)`.  `std::stable_sort`
(the `stable = true` branch) is modelled exactly by a stable merge sort on
the non-strict comparison `!lt b a`; `std::sort` (the other branch) only
promises some permutation sorted by `lt`, and this model refines that
unspecified choice to the same merge sort. -/
def GList.sorted (xs : GList α) (lt : α → α → Bool) (stable : Bool) : GList α :=
  let buf := xs.node.elems.mergeSort (fun a b => !lt b a)
  GList.toList xs.size buf.reverse Node.nil

/-- Pairing loop of `zip` (lines 860-879): walk both chains `s` steps,
buffering value pairs; the fallback branch marks the null dereference that
is unreachable since `s = min(size(), that.size())` for well-formed lists. -/
def zipChain : (s : Nat) → Node α → Node β → List (α × β)
  | 0, _, _ => []
  | s + 1, .cons a t1, .cons b t2 => (a, b) :: zipChain s t1 t2
  | _ + 1, _, _ => []

/-- Source `zip(that)` (lines 860-879). -/
def GList.zip (xs : GList α) (ys : GList β) : GList (α × β) :=
  let buf := zipChain (min xs.size ys.size) xs.node ys.node
  GList.toList buf.length buf.reverse Node.nil

/-- Source `scanLeft(z, op)` (lines 919-933): the accumulator vector starts at
`[z]` and appends `op(acc.back(), x)` per element — exactly `List.scanl`;
rebuild with `toList(size() + 1, ...)`. -/
def GList.scanLeft (xs : GList α) (z : β) (op : β → α → β) : GList β :=
  let buf := xs.node.elems.scanl op z
  GList.toList (xs.size + 1) buf.reverse Node.nil

/-- The backward prepend loop of `scanRight` (lines 947-963): `hd` starts
as `create(z, Nil)`; for each buffered element from last to first,
`hd = create(op(x, *hd->head), hd)`.  The first component tracks the
current `*hd->head`. -/
def scanRightPair (op : α → β → β) (z : β) : List α → β × Node β
  | [] => (z, Node.cons z Node.nil)
  | a :: l =>
    let r := scanRightPair op z l
    (op a r.1, Node.cons (op a r.1) r.2)

/-- Source `scanRight(z, op)` (lines 947-963): `List(size() + 1, hd)`. -/
def GList.scanRight (xs : GList α) (z : β) (op : α → β → β) : GList β :=
  ⟨xs.size + 1, (scanRightPair op z xs.node.elems).2⟩

/-- Comparison loop of `operator==` (lines 1088-1094): walk both chains
while the first has a non-null head, comparing values; the `false` fallback
marks the null dereference of the second chain's head, unreachable when the
sizes agree and both lists are well-formed. -/
def eqChain [BEq α] : Node α → Node α → Bool
  | .nil, _ => true
  | .cons h1 t1, .cons h2 t2 => if h1 != h2 then false else eqChain t1 t2
  | .cons _ _, .nil => false

/-- Source `operator==` (lines 1080-1096): size check, then element-wise chain
walk.  (The identity short-circuit `this == &that` returns `true` exactly
when the walk would, so it is dropped.) -/
def GList.beq [BEq α] (xs ys : GList α) : Bool :=
  if xs.size != ys.size then false
  else eqChain xs.node ys.node

section Lemmas

variable {α β : Type}

theorem Node.chainLength_eq (n : Node α) : n.chainLength = n.elems.length := by
  induction n with
  | nil => rfl
  | cons h t ih => simp [Node.chainLength, Node.elems, ih]

theorem Node.elems_ofList (l : List α) : (Node.ofList l).elems = l := by
  induction l with
  | nil => rfl
  | cons h t ih => simp [Node.ofList, Node.elems, ih]

theorem Node.ofList_elems (n : Node α) : Node.ofList n.elems = n := by
  induction n with
  | nil => rfl
  | cons h t ih => simp [Node.ofList, Node.elems, ih]

theorem Node.elems_inj {m n : Node α} (h : m.elems = n.elems) : m = n := by
  have := congrArg Node.ofList h
  rwa [Node.ofList_elems, Node.ofList_elems] at this

theorem elems_buildRev (rev : List α) (hd : Node α) :
    (buildRev rev hd).elems = rev.reverse ++ hd.elems := by
  induction rev generalizing hd with
  | nil => simp [buildRev]
  | cons x r ih =>
    show (buildRev r (Node.cons x hd)).elems = _
    rw [ih]
    simp [Node.elems]

theorem elems_buildRev_reverse (l : List α) (hd : Node α) :
    (buildRev l.reverse hd).elems = l ++ hd.elems := by
  simp [elems_buildRev]

theorem chainLength_buildRev (rev : List α) (hd : Node α) :
    (buildRev rev hd).chainLength = rev.length + hd.chainLength := by
  simp [Node.chainLength_eq, elems_buildRev]

theorem Node.headOpt_eq (n : Node α) : n.headOpt = n.elems.head? := by
  cases n <;> rfl

theorem Node.elems_tailN (n : Node α) : n.tailN.elems = n.elems.tail := by
  cases n <;> rfl

theorem Node.chainLength_tailN (n : Node α) :
    n.tailN.chainLength = n.chainLength - 1 := by
  cases n <;> rfl

theorem Node.elems_nth (n : Node α) (i : Nat) :
    (n.nth i).elems = n.elems.drop i := by
  induction i generalizing n with
  | zero => simp [Node.nth]
  | succ i ih =>
    cases n with
    | nil => simp [Node.nth, Node.tailN, ih, Node.elems]
    | cons h t => simp [Node.nth, Node.tailN, ih, Node.elems]

theorem Node.takeElems_eq (n : Node α) (k : Nat) :
    n.takeElems k = n.elems.take k := by
  induction n generalizing k with
  | nil => cases k <;> rfl
  | cons h t ih =>
    cases k with
    | zero => rfl
    | succ k => simp [Node.takeElems, Node.elems, ih]

theorem Node.takeWhileElems_eq (p : α → Bool) (n : Node α) :
    n.takeWhileElems p = n.elems.takeWhile p := by
  induction n with
  | nil => rfl
  | cons h t ih => simp [Node.takeWhileElems, Node.elems, List.takeWhile_cons, ih]

theorem Node.existsB_eq (p : α → Bool) (n : Node α) :
    n.existsB p = n.elems.any p := by
  induction n with
  | nil => rfl
  | cons h t ih =>
    simp only [Node.existsB, Node.elems, List.any_cons, ih]
    cases p h <;> simp

theorem Node.forallB_eq (p : α → Bool) (n : Node α) :
    n.forallB p = n.elems.all p := by
  induction n with
  | nil => rfl
  | cons h t ih =>
    simp only [Node.forallB, Node.elems, List.all_cons, ih]
    cases p h <;> simp

theorem Node.chainLength_eq_zero {n : Node α} :
    n.chainLength = 0 ↔ n = Node.nil := by
  cases n <;> simp [Node.chainLength]

end Lemmas

section WfLemmas

variable {α β : Type}

theorem wf_fromBuf (buf : List α) :
    wf (GList.toList buf.length buf.reverse Node.nil) := by
  simp [wf, GList.toList, chainLength_buildRev, Node.chainLength]

theorem wf_empty : wf (GList.empty : GList α) := rfl

theorem wf_single (x : α) : wf (GList.single x) := rfl

theorem wf_consL (x : α) {t : GList α} (ht : wf t) : wf (GList.consL x t) := by
  have ht' : t.size = t.node.chainLength := ht
  simp [wf, GList.consL, Node.chainLength, ht']

theorem wf_ofSeq (l : List α) : wf (GList.ofSeq l) := by
  simp [wf, GList.ofSeq, GList.toList, chainLength_buildRev, Node.chainLength]

theorem isEmpty_iff {xs : GList α} : xs.isEmpty = true ↔ xs.size = 0 := by
  simp [GList.isEmpty]

theorem wf_tailE {xs : GList α} (hx : wf xs) {t : GList α}
    (h : xs.tailE = .ok t) : wf t := by
  unfold GList.tailE at h
  split at h
  · cases h
  · cases h
    have hx' : xs.size = xs.node.chainLength := hx
    simp [wf, Node.chainLength_tailN, hx']

theorem wf_unconsE {xs : GList α} (hx : wf xs) {pr : Option α × GList α}
    (h : xs.unconsE = .ok pr) : wf pr.2 := by
  unfold GList.unconsE at h
  split at h
  · cases h
  · cases h
    have hx' : xs.size = xs.node.chainLength := hx
    simp [wf, Node.chainLength_tailN, hx']

theorem wf_take (xs : GList α) (n : Nat) : wf (xs.take n) :=
  wf_fromBuf _

theorem size_take {xs : GList α} (hx : wf xs) (n : Nat) :
    (xs.take n).size = min n xs.size := by
  have hx' : xs.size = xs.node.elems.length := by
    rw [show xs.size = xs.node.chainLength from hx, Node.chainLength_eq]
  simp [GList.take, GList.toList, Node.takeElems_eq, List.length_take]
  omega

theorem wf_initE {xs : GList α} {t : GList α} (h : xs.initE = .ok t) : wf t := by
  unfold GList.initE at h
  split at h
  · cases h
  · cases h
    exact wf_take _ _

theorem wf_drop {xs : GList α} (hx : wf xs) (n : Nat) : wf (xs.drop n) := by
  unfold GList.drop
  split
  · exact wf_empty
  · have hx' : xs.size = xs.node.chainLength := hx
    show xs.size - n = (xs.node.nth n).chainLength
    rw [Node.chainLength_eq, Node.elems_nth, List.length_drop,
      ← Node.chainLength_eq, ← hx']

theorem size_drop {xs : GList α} (n : Nat) (h : n < xs.size) :
    (xs.drop n).size = xs.size - n := by
  unfold GList.drop
  split
  · omega
  · rfl

theorem elems_drop {xs : GList α} (hx : wf xs) (n : Nat) :
    (xs.drop n).node.elems = xs.node.elems.drop n := by
  unfold GList.drop
  split
  · rename_i hle
    have hle' : xs.node.elems.length ≤ n := by
      have hx' : xs.size = xs.node.elems.length := by
        rw [show xs.size = xs.node.chainLength from hx, Node.chainLength_eq]
      omega
    simp [GList.empty, Node.elems, List.drop_eq_nil_of_le hle']
  · simp [Node.elems_nth]

theorem wf_takeRight {xs : GList α} (hx : wf xs) (n : Nat) :
    wf (xs.takeRight n) :=
  wf_drop hx _

theorem wf_dropRight (xs : GList α) (n : Nat) : wf (xs.dropRight n) :=
  wf_take _ _

theorem wf_takeWhile (xs : GList α) (p : α → Bool) : wf (xs.takeWhile p) :=
  wf_fromBuf _

theorem wf_dropWhileGo (p : α → Bool) (n : Node α) :
    wf (dropWhileGo p n.chainLength n) := by
  induction n with
  | nil => exact rfl
  | cons h t ih =>
    unfold dropWhileGo
    split
    · simpa [Node.chainLength] using ih
    · rfl

theorem wf_dropWhile {xs : GList α} (hx : wf xs) (p : α → Bool) :
    wf (xs.dropWhile p) := by
  unfold GList.dropWhile
  rw [show xs.size = xs.node.chainLength from hx]
  exact wf_dropWhileGo p xs.node

theorem wf_slice {xs : GList α} (hx : wf xs) (i j : Nat) :
    wf (xs.slice i j) := by
  unfold GList.slice
  split
  · exact wf_empty
  · exact wf_take _ _

theorem wf_updatedE {xs : GList α} (hx : wf xs) {i : Nat} {v : α}
    {t : GList α} (h : xs.updatedE i v = .ok t) : wf t := by
  unfold GList.updatedE at h
  split at h
  · cases h
  · rename_i hlt
    cases h
    have hx' : xs.size = xs.node.elems.length := by
      rw [show xs.size = xs.node.chainLength from hx, Node.chainLength_eq]
    show xs.size = (buildRev _ _).chainLength
    rw [chainLength_buildRev]
    simp only [List.length_reverse, Node.takeElems_eq, List.length_take,
      Node.chainLength, Node.chainLength_eq, Node.elems_tailN, Node.elems_nth,
      List.length_tail, List.length_drop]
    omega

theorem wf_prepend {xs : GList α} (hx : wf xs) (v : α) : wf (xs.prepend v) := by
  have hx' : xs.size = xs.node.chainLength := hx
  simp [wf, GList.prepend, Node.chainLength, hx']

theorem wf_concat {xs ys : GList α} (hx : wf xs) (hy : wf ys) :
    wf (xs.concat ys) := by
  unfold GList.concat
  split
  · exact hy
  · split
    · exact hx
    · have hx' : xs.size = xs.node.chainLength := hx
      have hy' : ys.size = ys.node.chainLength := hy
      simp [wf, GList.toList, chainLength_buildRev, hx', hy', Node.chainLength_eq,
        elems_buildRev_reverse]

theorem wf_map {xs : GList α} (hx : wf xs) (f : α → β) : wf (xs.map f) := by
  have hx' : xs.size = xs.node.elems.length := by
    rw [show xs.size = xs.node.chainLength from hx, Node.chainLength_eq]
  simp [wf, GList.map, GList.toList, chainLength_buildRev, Node.chainLength, hx']

theorem wf_filter (xs : GList α) (p : α → Bool) : wf (xs.filter p) :=
  wf_fromBuf _

theorem wf_filterNot (xs : GList α) (p : α → Bool) : wf (xs.filterNot p) :=
  wf_fromBuf _

theorem wf_reverse {xs : GList α} (hx : wf xs) : wf xs.reverse := by
  have hx' : xs.size = xs.node.elems.length := by
    rw [show xs.size = xs.node.chainLength from hx, Node.chainLength_eq]
  show wf ⟨xs.size, buildRev xs.node.elems Node.nil⟩
  simp [wf, chainLength_buildRev, Node.chainLength, hx']

theorem wf_flatMapG (xs : GList α) (f : α → GList β) : wf (xs.flatMapG f) :=
  wf_fromBuf _

theorem wf_flattenG (xs : GList (GList β)) : wf xs.flattenG :=
  wf_fromBuf _

theorem wf_sorted {xs : GList α} (hx : wf xs) (lt : α → α → Bool)
    (stable : Bool) : wf (xs.sorted lt stable) := by
  have hx' : xs.size = xs.node.elems.length := by
    rw [show xs.size = xs.node.chainLength from hx, Node.chainLength_eq]
  simp [wf, GList.sorted, GList.toList, chainLength_buildRev, Node.chainLength, hx']

theorem wf_zip (xs : GList α) (ys : GList β) : wf (xs.zip ys) :=
  wf_fromBuf _

theorem wf_scanLeft {xs : GList α} (hx : wf xs) (z : β) (op : β → α → β) :
    wf (xs.scanLeft z op) := by
  have hx' : xs.size = xs.node.elems.length := by
    rw [show xs.size = xs.node.chainLength from hx, Node.chainLength_eq]
  simp [wf, GList.scanLeft, GList.toList, chainLength_buildRev, Node.chainLength,
    hx', List.length_scanl]

theorem chainLength_scanRightPair (op : α → β → β) (z : β) (l : List α) :
    (scanRightPair op z l).2.chainLength = l.length + 1 := by
  induction l with
  | nil => rfl
  | cons a l ih => simp [scanRightPair, Node.chainLength, ih]

theorem wf_scanRight {xs : GList α} (hx : wf xs) (z : β) (op : α → β → β) :
    wf (xs.scanRight z op) := by
  have hx' : xs.size = xs.node.elems.length := by
    rw [show xs.size = xs.node.chainLength from hx, Node.chainLength_eq]
  simp [wf, GList.scanRight, chainLength_scanRightPair, hx']

theorem size_zero_iff_nil {xs : GList α} (hx : wf xs) :
    xs.size = 0 ↔ xs.node = Node.nil := by
  rw [show xs.size = xs.node.chainLength from hx, Node.chainLength_eq_zero]

end WfLemmas

section ErrorHelpers

variable {α β : Type}

theorem error_iff_guard {γ : Type} (b : Bool) (msg : String) (v : Except String γ)
    (hv : b = false → ∀ e, v ≠ .error e) :
    (((if b then .error msg else v) : Except String γ) = .error msg ↔ b = true) ∧
    ((∃ e, ((if b then .error msg else v) : Except String γ) = .error e)
        ↔ b = true) := by
  cases b with
  | true => simp
  | false =>
    simp only [Bool.false_eq_true, if_false]
    constructor
    · simp [hv rfl msg]
    · constructor
      · rintro ⟨e, he⟩
        exact absurd he (hv rfl e)
      · intro hc
        cases hc

theorem getE_last_ne_error {xs : GList α} (h : xs.isEmpty = false) :
    ∀ (e : String), xs.getE (xs.size - 1) ≠ .error e := by
  intro e
  have hsz : ¬ xs.size = 0 := by simpa [GList.isEmpty] using h
  unfold GList.getE
  split
  · exfalso; omega
  · simp

theorem reduceLeftE_ne_error {xs : GList α} (op : α → α → α)
    (h : xs.isEmpty = false) :
    ∀ (e : String), xs.reduceLeftE op ≠ .error e := by
  intro e
  unfold GList.reduceLeftE
  simp [h]

end ErrorHelpers

/-- C1: every list value produced by a public constructor or operation of
the embedded `List` satisfies the handle invariant `wf` — its cached size
equals the number of Cons nodes reachable from its root before the
terminating Nil — and, for a well-formed list, `size = 0` holds exactly
when the root node is Nil.  List-valued results of fallible operations
(`tail`, `uncons`, `init`, `updated`) are covered through their `ok`
outcomes; operations whose receiver must already be a list assume the
receiver's own invariant. -/
theorem spec_C1_handle_invariant {α β : Type}
    (xs ys : GList α) (xg : GList (GList β))
    (hx : wf xs) (hy : wf ys)
    (a v : α) (l : List α) (n i j : Nat)
    (p : α → Bool) (f : α → β) (g : α → GList β)
    (lt : α → α → Bool) (st : Bool)
    (z : β) (opl : β → α → β) (opr : α → β → β) :
    (xs.size = 0 ↔ xs.node = Node.nil) ∧
    wf (GList.empty : GList α) ∧ wf (GList.single a) ∧ wf (GList.consL a xs) ∧
    wf (GList.ofSeq l) ∧
    (∀ t, xs.tailE = .ok t → wf t) ∧
    (∀ pr, xs.unconsE = .ok pr → wf pr.2) ∧
    (∀ t, xs.initE = .ok t → wf t) ∧
    wf (xs.take n) ∧ wf (xs.takeRight n) ∧ wf (xs.takeWhile p) ∧
    wf (xs.drop n) ∧ wf (xs.dropRight n) ∧ wf (xs.dropWhile p) ∧
    wf (xs.slice i j) ∧
    (∀ t, xs.updatedE i v = .ok t → wf t) ∧
    wf (xs.prepend v) ∧ wf (xs.concat ys) ∧
    wf (xs.map f) ∧ wf (xs.filter p) ∧ wf (xs.filterNot p) ∧ wf xs.reverse ∧
    wf (xs.flatMapG g) ∧ wf xg.flattenG ∧
    wf (xs.sorted lt st) ∧ wf (xs.zip ys) ∧
    wf (xs.scanLeft z opl) ∧ wf (xs.scanRight z opr) :=
  ⟨size_zero_iff_nil hx, wf_empty, wf_single a, wf_consL a hx, wf_ofSeq l,
   fun _ h => wf_tailE hx h, fun _ h => wf_unconsE hx h, fun _ h => wf_initE h,
   wf_take xs n, wf_takeRight hx n, wf_takeWhile xs p,
   wf_drop hx n, wf_dropRight xs n, wf_dropWhile hx p,
   wf_slice hx i j, fun _ h => wf_updatedE hx h,
   wf_prepend hx v, wf_concat hx hy,
   wf_map hx f, wf_filter xs p, wf_filterNot xs p, wf_reverse hx,
   wf_flatMapG xs g, wf_flattenG xg,
   wf_sorted hx lt st, wf_zip xs ys, wf_scanLeft hx z opl, wf_scanRight hx z opr⟩

/-- Witness for C1 at a concrete well-formed list. -/
theorem spec_C1_handle_invariant_witness :
    (GList.ofSeq [1, 2, 3]).size = 0 ↔ (GList.ofSeq [1, 2, 3]).node = Node.nil :=
  (spec_C1_handle_invariant (β := Nat) (GList.ofSeq [1, 2, 3]) (GList.ofSeq [4])
    (GList.ofSeq [GList.ofSeq [5]]) (by decide) (by decide)
    0 9 [7, 8] 2 1 2 (fun x => x == 1) (fun x => x + 1) (fun _ => GList.empty)
    (fun x y => x < y) true 0 (fun b a => b + a) (fun a b => a + b)).1

/-- C4: each of `head`, `tail`, `uncons`, `last`, `init`, `reduce`,
`reduceLeft` and `reduceRight` fails — with its EmptyCollection error
message — exactly when the list has size zero, and produces an `ok` result
otherwise. -/
theorem spec_C4_empty_collection_errors {α : Type} (xs : GList α)
    (op : α → α → α) :
    (xs.headE = .error "head of empty list" ↔ xs.size = 0) ∧
    ((∃ e, xs.headE = .error e) ↔ xs.size = 0) ∧
    (xs.tailE = .error "tail of empty list" ↔ xs.size = 0) ∧
    ((∃ e, xs.tailE = .error e) ↔ xs.size = 0) ∧
    (xs.unconsE = .error "uncons on empty list" ↔ xs.size = 0) ∧
    ((∃ e, xs.unconsE = .error e) ↔ xs.size = 0) ∧
    (xs.lastE = .error "last of empty list" ↔ xs.size = 0) ∧
    ((∃ e, xs.lastE = .error e) ↔ xs.size = 0) ∧
    (xs.initE = .error "init of empty list" ↔ xs.size = 0) ∧
    ((∃ e, xs.initE = .error e) ↔ xs.size = 0) ∧
    (xs.reduceE op = .error "reduce on empty list" ↔ xs.size = 0) ∧
    ((∃ e, xs.reduceE op = .error e) ↔ xs.size = 0) ∧
    (xs.reduceLeftE op = .error "reduceLeft on empty list" ↔ xs.size = 0) ∧
    ((∃ e, xs.reduceLeftE op = .error e) ↔ xs.size = 0) ∧
    (xs.reduceRightE op = .error "reduceRight on empty list" ↔ xs.size = 0) ∧
    ((∃ e, xs.reduceRightE op = .error e) ↔ xs.size = 0) := by
  have hhead := error_iff_guard xs.isEmpty "head of empty list"
    (.ok xs.node.headOpt) (fun _ e h => by cases h)
  have htail := error_iff_guard xs.isEmpty "tail of empty list"
    (.ok (⟨xs.size - 1, xs.node.tailN⟩ : GList α)) (fun _ e h => by cases h)
  have huncons := error_iff_guard xs.isEmpty "uncons on empty list"
    (.ok (xs.node.headOpt, (⟨xs.size - 1, xs.node.tailN⟩ : GList α)))
    (fun _ e h => by cases h)
  have hlast := error_iff_guard xs.isEmpty "last of empty list"
    (xs.getE (xs.size - 1)) (fun h e => getE_last_ne_error h e)
  have hinit := error_iff_guard xs.isEmpty "init of empty list"
    (.ok (xs.take (xs.size - 1))) (fun _ e h => by cases h)
  have hreduce := error_iff_guard xs.isEmpty "reduce on empty list"
    (xs.reduceLeftE op) (fun h e => reduceLeftE_ne_error op h e)
  have hreduceL := error_iff_guard xs.isEmpty "reduceLeft on empty list"
    (.ok (match xs.node with
      | .nil => none
      | .cons h t => some (t.elems.foldl op h))) (fun _ e h => by cases h)
  have hreduceR := error_iff_guard xs.isEmpty "reduceRight on empty list"
    (.ok (reduceRightList op xs.node.elems)) (fun _ e h => by cases h)
  exact ⟨hhead.1.trans isEmpty_iff, hhead.2.trans isEmpty_iff,
    htail.1.trans isEmpty_iff, htail.2.trans isEmpty_iff,
    huncons.1.trans isEmpty_iff, huncons.2.trans isEmpty_iff,
    hlast.1.trans isEmpty_iff, hlast.2.trans isEmpty_iff,
    hinit.1.trans isEmpty_iff, hinit.2.trans isEmpty_iff,
    hreduce.1.trans isEmpty_iff, hreduce.2.trans isEmpty_iff,
    hreduceL.1.trans isEmpty_iff, hreduceL.2.trans isEmpty_iff,
    hreduceR.1.trans isEmpty_iff, hreduceR.2.trans isEmpty_iff⟩

/-- C5: `operator[]` and `updated` fail — with the IndexOutOfRange error
message — exactly when the supplied index is at least the list's size. -/
theorem spec_C5_index_out_of_range {α : Type} (xs : GList α) (i : Nat) (v : α) :
    (xs.getE i = .error "index out of range" ↔ xs.size ≤ i) ∧
    ((∃ e, xs.getE i = .error e) ↔ xs.size ≤ i) ∧
    (xs.updatedE i v = .error "index out of range" ↔ xs.size ≤ i) ∧
    ((∃ e, xs.updatedE i v = .error e) ↔ xs.size ≤ i) := by
  by_cases h : xs.size ≤ i
  · simp [GList.getE, GList.updatedE, h]
  · simp [GList.getE, GList.updatedE, h]

section ElemsLemmas

variable {α β : Type}

theorem elems_toListBuf (s : Nat) (buf : List α) :
    (GList.toList s buf.reverse Node.nil).node.elems = buf := by
  simp [GList.toList, elems_buildRev_reverse, Node.elems]

theorem elems_filter (xs : GList α) (p : α → Bool) :
    (xs.filter p).node.elems = xs.node.elems.filter p :=
  elems_toListBuf _ _

theorem size_filter (xs : GList α) (p : α → Bool) :
    (xs.filter p).size = (xs.node.elems.filter p).length := rfl

theorem length_filter_not (p : α → Bool) (l : List α) :
    (l.filter p).length + (l.filter fun x => !p x).length = l.length := by
  induction l with
  | nil => rfl
  | cons a l ih => by_cases h : p a <;> simp [List.filter_cons, h] <;> omega

theorem elems_length_of_wf {xs : GList α} (hx : wf xs) :
    xs.node.elems.length = xs.size := by
  rw [show xs.size = xs.node.chainLength from hx, Node.chainLength_eq]

theorem elems_take {xs : GList α} (hx : wf xs) (n : Nat) :
    (xs.take n).node.elems = xs.node.elems.take n := by
  rw [GList.take]
  show (GList.toList _ (xs.node.takeElems (min n xs.size)).reverse _).node.elems = _
  rw [elems_toListBuf, Node.takeElems_eq]
  rcases Nat.le_total n xs.size with h | h
  · rw [Nat.min_eq_left h]
  · rw [Nat.min_eq_right h, ← elems_length_of_wf hx, List.take_length,
      List.take_of_length_le (by rw [elems_length_of_wf hx]; omega)]

theorem size_drop_eq (xs : GList α) (n : Nat) :
    (xs.drop n).size = xs.size - n := by
  unfold GList.drop
  split
  · show (0 : Nat) = xs.size - n
    omega
  · rfl

theorem elems_concat {xs ys : GList α} (hx : wf xs) (hy : wf ys) :
    (xs.concat ys).node.elems = xs.node.elems ++ ys.node.elems := by
  unfold GList.concat
  split
  · rename_i h
    have hn : xs.node = Node.nil := (size_zero_iff_nil hx).mp (isEmpty_iff.mp h)
    simp [hn, Node.elems]
  · split
    · rename_i _ h
      have hn : ys.node = Node.nil := (size_zero_iff_nil hy).mp (isEmpty_iff.mp h)
      simp [hn, Node.elems]
    · simp [GList.toList, elems_buildRev_reverse]

theorem size_concat {xs ys : GList α} (hx : wf xs) (hy : wf ys) :
    (xs.concat ys).size = xs.size + ys.size := by
  unfold GList.concat
  split
  · rename_i h
    simp [isEmpty_iff.mp h]
  · split
    · rename_i _ h
      simp [isEmpty_iff.mp h]
    · rfl

theorem eqChain_self {γ : Type} [BEq γ] [LawfulBEq γ] (n : Node γ) :
    eqChain n n = true := by
  induction n with
  | nil => rfl
  | cons h t ih => simp [eqChain, ih]

theorem beq_of_same {γ : Type} [BEq γ] [LawfulBEq γ] {xs ys : GList γ}
    (hs : xs.size = ys.size) (hn : xs.node = ys.node) : xs.beq ys = true := by
  unfold GList.beq
  rw [hs, hn]
  simp [eqChain_self]

theorem getE_eq (xs : GList α) {j : Nat} (hj : j < xs.size) :
    xs.getE j = .ok (xs.node.elems[j]?) := by
  unfold GList.getE
  rw [if_neg (by omega)]
  congr 1
  rw [Node.headOpt_eq, Node.elems_nth, List.head?_eq_getElem?,
    List.getElem?_drop, Nat.add_zero]

end ElemsLemmas

/-- C2: `filter` keeps exactly the elements satisfying the predicate in
their original order, `filterNot` keeps exactly those violating it,
everything in `filter p`'s result satisfies `p`, and the two result sizes
add up to the source size. -/
theorem spec_C2_filter_partition {α : Type} (xs : GList α) (hx : wf xs)
    (p : α → Bool) :
    (xs.filter p).node.elems = xs.node.elems.filter p ∧
    (xs.filterNot p).node.elems = xs.node.elems.filter (fun x => !p x) ∧
    (xs.filter p).forallB p = true ∧
    (xs.filter p).size + (xs.filterNot p).size = xs.size := by
  refine ⟨elems_filter xs p, elems_filter xs _, ?_, ?_⟩
  · rw [GList.forallB, Node.forallB_eq, elems_filter]
    simp only [List.all_eq_true, List.mem_filter]
    exact fun x h => h.2
  · rw [size_filter, GList.filterNot, size_filter, ← elems_length_of_wf hx]
    exact length_filter_not p xs.node.elems

/-- Witness for C2 at a concrete list and predicate. -/
theorem spec_C2_filter_partition_witness :
    ((GList.ofSeq [1, 2, 4, 5, 6]).filter (fun x => x % 2 == 0)).node.elems
        = (GList.ofSeq [1, 2, 4, 5, 6]).node.elems.filter (fun x => x % 2 == 0) ∧
    ((GList.ofSeq [1, 2, 4, 5, 6]).filterNot (fun x => x % 2 == 0)).node.elems
        = (GList.ofSeq [1, 2, 4, 5, 6]).node.elems.filter (fun x => !(x % 2 == 0)) ∧
    ((GList.ofSeq [1, 2, 4, 5, 6]).filter (fun x => x % 2 == 0)).forallB
        (fun x => x % 2 == 0) = true ∧
    ((GList.ofSeq [1, 2, 4, 5, 6]).filter (fun x => x % 2 == 0)).size +
        ((GList.ofSeq [1, 2, 4, 5, 6]).filterNot (fun x => x % 2 == 0)).size
        = (GList.ofSeq [1, 2, 4, 5, 6]).size :=
  spec_C2_filter_partition (GList.ofSeq [1, 2, 4, 5, 6]) (by decide)
    (fun x => x % 2 == 0)

/-- C3: `take n` has size `min n size`, and `take n` concatenated with
`drop n` is equal (element-wise, via the embedded `operator==`) to the
original list. -/
theorem spec_C3_take_drop_concat {α : Type} [BEq α] [LawfulBEq α]
    (xs : GList α) (hx : wf xs) (n : Nat) :
    (xs.take n).size = min n xs.size ∧
    ((xs.take n).concat (xs.drop n)).beq xs = true := by
  refine ⟨size_take hx n, ?_⟩
  have ht := wf_take xs n
  have hd := wf_drop hx n
  have hsz : ((xs.take n).concat (xs.drop n)).size = xs.size := by
    rw [size_concat ht hd, size_take hx n, size_drop_eq]
    omega
  have hel : ((xs.take n).concat (xs.drop n)).node.elems = xs.node.elems := by
    rw [elems_concat ht hd, elems_take hx n, elems_drop hx n,
      List.take_append_drop]
  exact beq_of_same hsz (Node.elems_inj hel)

/-- Witness for C3 at a concrete list and count. -/
theorem spec_C3_take_drop_concat_witness :
    ((GList.ofSeq [1, 2, 3]).take 2).size = min 2 (GList.ofSeq [1, 2, 3]).size ∧
    (((GList.ofSeq [1, 2, 3]).take 2).concat ((GList.ofSeq [1, 2, 3]).drop 2)).beq
        (GList.ofSeq [1, 2, 3]) = true :=
  spec_C3_take_drop_concat (GList.ofSeq [1, 2, 3]) (by decide) 2

/-- C7: `takeRight n` equals `drop (size - n)` and `dropRight n` equals
`take (size - n)`, with truncated natural subtraction (for `n > size` the
difference is zero, matching the code's `size - min(n, size)`). -/
theorem spec_C7_right_operations {α : Type} (xs : GList α) (n : Nat) :
    xs.takeRight n = xs.drop (xs.size - n) ∧
    xs.dropRight n = xs.take (xs.size - n) := by
  have h : xs.size - min n xs.size = xs.size - n := by omega
  rw [GList.takeRight, GList.dropRight, h]
  exact ⟨rfl, rfl⟩

/-- C10: on an empty list, `exists` returns `false` and `forall` returns
`true`, and the predicate is invoked zero times by either loop. -/
theorem spec_C10_empty_queries {α : Type} (p : α → Bool) (xs : GList α)
    (hx : wf xs) (h0 : xs.size = 0) :
    xs.existsB p = false ∧ xs.forallB p = true ∧
    xs.node.existsCalls p = 0 ∧ xs.node.forallCalls p = 0 := by
  have hnil : xs.node = Node.nil := (size_zero_iff_nil hx).mp h0
  refine ⟨?_, ?_, ?_, ?_⟩ <;>
    simp [GList.existsB, GList.forallB, hnil, Node.existsB, Node.forallB,
      Node.existsCalls, Node.forallCalls]

/-- Witness for C10 at the empty list and a concrete predicate. -/
theorem spec_C10_empty_queries_witness :
    (GList.empty : GList Nat).existsB (fun x => x == 0) = false ∧
    (GList.empty : GList Nat).forallB (fun x => x == 0) = true ∧
    (GList.empty : GList Nat).node.existsCalls (fun x => x == 0) = 0 ∧
    (GList.empty : GList Nat).node.forallCalls (fun x => x == 0) = 0 :=
  spec_C10_empty_queries (fun x => x == 0) GList.empty (by decide) rfl

section UpdatedLemmas

variable {α : Type}

theorem updatedE_ok {xs : GList α} {i : Nat} (hi : i < xs.size) (v : α) :
    xs.updatedE i v = .ok (GList.toList xs.size (xs.node.takeElems i).reverse
      (Node.cons v (xs.node.nth i).tailN)) := by
  unfold GList.updatedE
  rw [if_neg (by omega)]

theorem elems_updated (xs : GList α) (i : Nat) (v : α) :
    (GList.toList xs.size (xs.node.takeElems i).reverse
        (Node.cons v (xs.node.nth i).tailN)).node.elems
      = xs.node.elems.take i ++ v :: xs.node.elems.drop (i + 1) := by
  show (buildRev _ _).elems = _
  simp only [elems_buildRev_reverse, Node.takeElems_eq, Node.elems,
    Node.elems_tailN, Node.elems_nth, List.tail_drop]

end UpdatedLemmas

/-- C6: a successful `updated(index, v)` call returns a list of the same
size whose element at `index` is `v` and whose element at every other
in-range position is unchanged. -/
theorem spec_C6_updated_semantics {α : Type} (xs : GList α) (hx : wf xs)
    (i : Nat) (hi : i < xs.size) (v : α) (ys : GList α)
    (h : xs.updatedE i v = .ok ys) :
    ys.size = xs.size ∧ ys.getE i = .ok (some v) ∧
    (∀ j, j < xs.size → j ≠ i → ys.getE j = xs.getE j) := by
  rw [updatedE_ok hi v] at h
  injection h with h
  subst h
  have hlen : xs.node.elems.length = xs.size := elems_length_of_wf hx
  have hti : (xs.node.elems.take i).length = i := by
    rw [List.length_take]; omega
  refine ⟨rfl, ?_, ?_⟩
  · rw [getE_eq (GList.toList xs.size (xs.node.takeElems i).reverse
        (Node.cons v (xs.node.nth i).tailN)) hi, elems_updated,
      List.getElem?_append_right (by rw [hti]), hti, Nat.sub_self]
    simp
  · intro j hj hne
    rw [getE_eq (GList.toList xs.size (xs.node.takeElems i).reverse
        (Node.cons v (xs.node.nth i).tailN)) hj, getE_eq xs hj, elems_updated]
    congr 1
    rcases Nat.lt_or_ge j i with hlt | hge
    · rw [List.getElem?_append_left (by rw [hti]; omega), List.getElem?_take_of_lt hlt]
    · have hgt : i < j := by omega
      rw [List.getElem?_append_right (by rw [hti]; omega), hti,
        show j - i = (j - i - 1) + 1 by omega, List.getElem?_cons_succ,
        List.getElem?_drop]
      congr 1
      omega

/-- Witness for C6 at a concrete list, index and replacement value. -/
theorem spec_C6_updated_semantics_witness :
    (GList.ofSeq [10, 99, 30]).size = (GList.ofSeq [10, 20, 30]).size ∧
    (GList.ofSeq [10, 99, 30]).getE 1 = .ok (some 99) ∧
    (GList.ofSeq [10, 99, 30]).getE 0 = (GList.ofSeq [10, 20, 30]).getE 0 :=
  have h := spec_C6_updated_semantics (GList.ofSeq [10, 20, 30]) (by decide) 1
    (by decide) 99 (GList.ofSeq [10, 99, 30]) (by rfl)
  ⟨h.1, h.2.1, h.2.2 0 (by decide) (by decide)⟩

section Sharing

/-- Addressed node: the same chain data as `Node`, with each Cons node
additionally labelled by its heap address (the object a `shared_ptr` to the
node points at).  `tail` and `drop` only follow existing tail pointers and
never allocate, so they preserve labels; since the theorems below hold for
every labelling, equality of addressed chains expresses physical node
identity, not mere value equality. -/
inductive ANode (α : Type) : Type where
  | nil : ANode α
  | cons (addr : Nat) (head : α) (tail : ANode α) : ANode α
  deriving DecidableEq

variable {α : Type}

/-- Source `n->tail` on addressed nodes. -/
def ANode.tailA : ANode α → ANode α
  | .nil => .nil
  | .cons _ _ t => t

/-- Number of Cons nodes before the terminating Nil. -/
def ANode.alength : ANode α → Nat
  | .nil => 0
  | .cons _ _ t => t.alength + 1

/-- Addresses of the Cons nodes along the chain, in order. -/
def ANode.addrs : ANode α → List Nat
  | .nil => []
  | .cons a _ t => a :: t.addrs

/-- The node after `i` tail steps, as in the walking loop of `drop`. -/
def ANode.nthA : ANode α → Nat → ANode α
  | n, 0 => n
  | n, i + 1 => n.tailA.nthA i

/-- The list handle over addressed nodes (same fields as `GList`). -/
structure AGList (α : Type) : Type where
  size : Nat
  node : ANode α
  deriving DecidableEq

/-- Handle invariant on addressed lists. -/
def wfA (xs : AGList α) : Prop := xs.size = xs.node.alength

instance (xs : AGList α) : Decidable (wfA xs) := by
  unfold wfA; infer_instance

/-- Source `tail()` (List.hpp lines 173-179) on addressed nodes: returns
`List(size() - 1, node_->tail)` — the existing tail pointer, no
allocation. -/
def AGList.tailE (xs : AGList α) : Except String (AGList α) :=
  if xs.size == 0 then .error "tail of empty list"
  else .ok ⟨xs.size - 1, xs.node.tailA⟩

/-- Source `drop(n)` (List.hpp lines 384-392) on addressed nodes: walk `n` tail
pointers and wrap the node found there — again no allocation. -/
def AGList.drop (xs : AGList α) (n : Nat) : AGList α :=
  if xs.size ≤ n then ⟨0, .nil⟩
  else ⟨xs.size - n, xs.node.nthA n⟩

theorem ANode.addrs_tailA (n : ANode α) : n.tailA.addrs = n.addrs.drop 1 := by
  cases n <;> rfl

theorem ANode.addrs_nthA (n : ANode α) (i : Nat) :
    (n.nthA i).addrs = n.addrs.drop i := by
  induction i generalizing n with
  | zero => rfl
  | succ i ih =>
    cases n with
    | nil => simp [ANode.nthA, ANode.tailA, ih, ANode.addrs]
    | cons a h t => simp [ANode.nthA, ANode.tailA, ih, ANode.addrs]

end Sharing

/-- C9: `tail()` and, for `n < size`, `drop(n)` share the source chain
physically: the result's chain carries exactly the node addresses of the
source chain after the first node (resp. after the first `n` nodes), for
every possible address labelling — the same heap nodes, not copies. -/
theorem spec_C9_structural_sharing {α : Type} (xs : AGList α) (hx : wfA xs)
    (n : Nat) (hn : n < xs.size) :
    (∀ t, xs.tailE = .ok t → t.node.addrs = xs.node.addrs.drop 1) ∧
    (xs.drop n).node.addrs = xs.node.addrs.drop n := by
  constructor
  · intro t ht
    unfold AGList.tailE at ht
    split at ht
    · cases ht
    · cases ht
      exact ANode.addrs_tailA xs.node
  · unfold AGList.drop
    rw [if_neg (by omega)]
    exact ANode.addrs_nthA xs.node n

/-- Witness for C9 at a concrete addressed chain. -/
theorem spec_C9_structural_sharing_witness :
    ((AGList.mk 2 (ANode.cons 100 7 (ANode.cons 200 8 ANode.nil))).drop 1).node.addrs
      = (AGList.mk 2 (ANode.cons 100 7 (ANode.cons 200 8 ANode.nil))).node.addrs.drop 1 :=
  (spec_C9_structural_sharing
    (AGList.mk 2 (ANode.cons 100 7 (ANode.cons 200 8 ANode.nil)))
    (by decide) 1 (by decide)).2

/-- C8: `sorted(lt, stable)` returns a permutation of the list that is
sorted ascending with respect to `lt` (no later element is strictly less
than an earlier one), and in stable mode elements that compare equal under
`lt` (neither is less than the other) keep their relative source order —
stated as: every `lt`-equivalence class, read off by `filter`, is the same
subsequence in the result as in the source.  The comparator is assumed to
be a strict weak ordering, which the C++ standard requires of sort
comparators; `htot` is its asymmetry and `htr` the transitivity of the
induced not-less-than relation. -/
theorem spec_C8_sorted {α : Type} (xs : GList α) (hx : wf xs)
    (lt : α → α → Bool) (stable : Bool)
    (htot : ∀ a b, lt a b = false ∨ lt b a = false)
    (htr : ∀ a b c, lt b a = false → lt c b = false → lt c a = false) :
    ((xs.sorted lt stable).node.elems).Perm xs.node.elems ∧
    (xs.sorted lt stable).node.elems.Pairwise (fun a b => lt b a = false) ∧
    (stable = true → ∀ a,
      (xs.sorted lt stable).node.elems.filter (fun x => !lt x a && !lt a x)
        = xs.node.elems.filter (fun x => !lt x a && !lt a x)) := by
  have htrans : ∀ (a b c : α), (!lt b a) = true → (!lt c b) = true →
      (!lt c a) = true := by
    intro a b c h1 h2
    simp only [Bool.not_eq_true'] at h1 h2 ⊢
    exact htr a b c h1 h2
  have htotal : ∀ (a b : α), ((!lt b a) || (!lt a b)) = true := by
    intro a b
    rcases htot a b with h | h <;> simp [h]
  have hel : (xs.sorted lt stable).node.elems
      = xs.node.elems.mergeSort (fun a b => !lt b a) := elems_toListBuf _ _
  refine ⟨?_, ?_, ?_⟩
  · rw [hel]
    exact List.mergeSort_perm xs.node.elems _
  · rw [hel]
    exact (List.sorted_mergeSort htrans htotal xs.node.elems).imp
      (fun h => by simpa using h)
  · intro _ a
    rw [hel]
    have hpw : (xs.node.elems.filter (fun x => !lt x a && !lt a x)).Pairwise
        (fun x y => (!lt y x) = true) := by
      apply List.pairwise_of_forall_mem_list
      intro x hxm y hym
      have h1 := (List.mem_filter.mp hxm).2
      have h2 := (List.mem_filter.mp hym).2
      simp only [Bool.and_eq_true, Bool.not_eq_true'] at h1 h2
      simp only [Bool.not_eq_true']
      exact htr x a y h1.2 h2.1
    have hsub : List.Sublist (xs.node.elems.filter (fun x => !lt x a && !lt a x))
        (xs.node.elems.mergeSort (fun a b => !lt b a)) :=
      List.sublist_mergeSort htrans htotal hpw (List.filter_sublist _)
    have hcq : (xs.node.elems.filter (fun x => !lt x a && !lt a x)).filter
        (fun x => !lt x a && !lt a x)
        = xs.node.elems.filter (fun x => !lt x a && !lt a x) :=
      List.filter_eq_self.mpr (fun x hxm => (List.mem_filter.mp hxm).2)
    have hsub2 := hsub.filter (fun x => !lt x a && !lt a x)
    rw [hcq] at hsub2
    have hperm : List.Perm ((xs.node.elems.mergeSort (fun a b => !lt b a)).filter
        (fun x => !lt x a && !lt a x))
        (xs.node.elems.filter (fun x => !lt x a && !lt a x)) :=
      (List.mergeSort_perm xs.node.elems _).filter _
    exact (hsub2.eq_of_length hperm.length_eq.symm).symm

/-- Witness for C8 at a concrete list and a concrete strict weak order. -/
theorem spec_C8_sorted_witness :
    (((GList.ofSeq [true, false, true]).sorted (fun a b => !a && b) true).node.elems).Perm
        (GList.ofSeq [true, false, true]).node.elems ∧
    ((GList.ofSeq [true, false, true]).sorted (fun a b => !a && b) true).node.elems.filter
        (fun x => !(!x && false) && !(!false && x))
      = (GList.ofSeq [true, false, true]).node.elems.filter
        (fun x => !(!x && false) && !(!false && x)) :=
  have h := spec_C8_sorted (GList.ofSeq [true, false, true]) (by decide)
    (fun a b => !a && b) true (by decide) (by decide)
  ⟨h.1, h.2.2 rfl false⟩

end Gungnir
